import Mathlib

/-!
Verification of `KeyboardTranslatorReader.cpp` (Konsole keyboard translator
file reader): the tokenizer (comment stripping, line classification and the
key-line regular expression), the key-sequence decoder (the `+`/`-` polarity
scan), command parsing, and the reader's entry-production loop.

Character-level functions operate on `List Char`; `QString` is modelled as
`String`/`List Char` with ASCII semantics, which covers every translator file
construct (key names, modifier names, punctuation).
-/

namespace Konsole

/-! ## Basic character classes (Qt / PCRE, ASCII range) -/

/-- QChar whitespace and the PCRE escape for whitespace: space, tab, newline,
vertical tab, form feed, carriage return. -/
def isQtSpace (c : Char) : Bool :=
  c = ' ' || c = '\t' || c = '\n' || c = '\r' || c.toNat = 11 || c.toNat = 12

/-- PCRE word character (default, no Unicode properties): letters, digits
and underscore. -/
def isWordChar (c : Char) : Bool :=
  c.isAlphanum || c = '_'

/-- ASCII lowercasing, as `QString::toLower` acts on the ASCII range. -/
def lowerStr (s : String) : String :=
  String.mk (s.data.map Char.toLower)

/-! ## Comment stripping (`tokenize`, lines 320-333)

The C++ code scans the line from the last character to the first, toggling
`inQuotes` at every `"` and assigning `commentPos = i` at every `#` seen
while not inside quotes; afterwards it removes everything from `commentPos`
on.  `stripScan` performs the same right-to-left scan: for `c :: rest` the
characters of `rest` are processed first (they sit to the right of `c`), and
the returned position is relative to the whole list. -/

/-- Right-to-left comment scan: returns the `inQuotes` flag after processing
the whole list and the final value of `commentPos` (`none` when never
assigned). -/
def stripScan : List Char → Bool × Option Nat
  | [] => (false, none)
  | c :: rest =>
    let r := stripScan rest
    let pos1 := r.2.map (· + 1)
    if c = '"' then (!r.1, pos1)
    else if c = '#' ∧ r.1 = false then (r.1, some 0)
    else (r.1, pos1)

/-- Comment removal of `tokenize`: truncate at the final `commentPos` of the
backward scan, if one was assigned. -/
def stripComments (cs : List Char) : List Char :=
  match (stripScan cs).2 with
  | none => cs
  | some j => cs.take j

/-- The smallest index whose character is `#` and whose strict suffix holds
an even number of `"` characters (characterisation of the scan's final
`commentPos`). -/
def firstUnquotedHash : List Char → Option Nat
  | [] => none
  | c :: rest =>
    if c = '#' ∧ rest.count '"' % 2 = 0 then some 0
    else (firstUnquotedHash rest).map (· + 1)

/-- The largest index whose character is `#` and whose strict suffix holds an
even number of `"` characters: the position of the first `#` encountered by
the backward scan while not inside quotes. -/
def lastUnquotedHash : List Char → Option Nat
  | [] => none
  | c :: rest =>
    match lastUnquotedHash rest with
    | some j => some (j + 1)
    | none => if c = '#' ∧ rest.count '"' % 2 = 0 then some 0 else none

/-- Does index `j` hold a `#` whose strict suffix has even quote count
(i.e. a `#` that the backward scan sees outside quotes)? -/
def unquotedHashAt (cs : List Char) (j : Nat) : Prop :=
  cs.getD j ' ' = '#' ∧ (cs.drop (j + 1)).count '"' % 2 = 0

instance (cs : List Char) (j : Nat) : Decidable (unquotedHashAt cs j) := by
  unfold unquotedHashAt; infer_instance

/-! ## `QString::simplified` -/

/-- Maximal whitespace-free words of a character list; `cur` is the reversed
word currently being accumulated. -/
def wordsQtAux (cur : List Char) : List Char → List (List Char)
  | [] => if cur = [] then [] else [cur.reverse]
  | c :: rest =>
    if isQtSpace c then
      if cur = [] then wordsQtAux [] rest else cur.reverse :: wordsQtAux [] rest
    else wordsQtAux (c :: cur) rest

/-- `QString::simplified`: trim leading/trailing whitespace and collapse every
internal whitespace run to a single space. -/
def simplifiedQt (cs : List Char) : List Char :=
  ((wordsQtAux [] cs).intersperse [' ']).flatten

/-! ## The key-line regular expression

`key\s+(.+?)\s*:\s*("(.*)"|\w+)` matched with `QRegularExpression::match`,
i.e. searched (unanchored) with PCRE leftmost-match semantics: start
positions are tried left to right; at a position, `\s+` is greedy (longest
first), `(.+?)` is non-greedy (shortest first), `(.*)` is greedy, and the
alternation tries the quoted branch before the bare-word branch.  A match
returns (capture 1, capture 2, capture 3), where capture 3 participates only
in the quoted branch. -/

/-- Greedy `(.*)"` step: split the list before its last `"`, if any. -/
def beforeLastQuote (cs : List Char) : Option (List Char) :=
  match cs.reverse.dropWhile (fun c => c ≠ '"') with
  | [] => none
  | _ :: rest => some rest.reverse

/-- Bare-word alternative `\w+` (greedy, at least one character). -/
def wordTail (cs : List Char) : Option (String × Option String) :=
  let w := cs.takeWhile isWordChar
  if w = [] then none else some (String.mk w, none)

/-- Match `\s*:\s*("(.*)"|\w+)` at the head of the list, returning captures
2 and 3.  In the quoted branch `.*` cannot cross a newline, and capture 2
includes the two quote characters. -/
def matchTail (cs : List Char) : Option (String × Option String) :=
  match cs.dropWhile isQtSpace with
  | ':' :: rest =>
    let rest1 := rest.dropWhile isQtSpace
    match rest1 with
    | '"' :: rest2 =>
      match beforeLastQuote (rest2.takeWhile (fun c => c ≠ '\n')) with
      | some g3 =>
        some (String.mk ('"' :: g3 ++ ['"']), some (String.mk g3))
      | none => wordTail rest1
    | _ => wordTail rest1
  | _ => none

/-- Non-greedy `(.+?)` followed by the tail pattern: try capture lengths in
increasing order; `.` does not match a newline. -/
def tryG1 (acc : List Char) : List Char → Option (List Char × String × Option String)
  | [] => none
  | c :: rest =>
    if c = '\n' then none
    else
      match matchTail rest with
      | some (g2, g3) => some (acc ++ [c], g2, g3)
      | none => tryG1 (acc ++ [c]) rest

/-- Greedy `\s+` backtracking: try `j` leading whitespace characters, largest
count first, each followed by the non-greedy group. -/
def trySpacesDown : Nat → List Char → Option (List Char × String × Option String)
  | 0, _ => none
  | j + 1, cs =>
    match tryG1 [] (cs.drop (j + 1)) with
    | some r => some r
    | none => trySpacesDown j cs

/-- Match the whole pattern at the head of the list: literal `key`, `\s+`,
then group and tail. -/
def matchKeyAt : List Char → Option (List Char × String × Option String)
  | 'k' :: 'e' :: 'y' :: rest =>
    let n := (rest.takeWhile isQtSpace).length
    if n = 0 then none else trySpacesDown n rest
  | _ => none

/-- Unanchored search: try every start position, leftmost first (the
semantics of `QRegularExpression::match`). -/
def searchKey : List Char → Option (List Char × String × Option String)
  | [] => none
  | c :: rest =>
    match matchKeyAt (c :: rest) with
    | some r => some r
    | none => searchKey rest

/-! ## Tokens and `tokenize` -/

inductive TokenType where
  | TitleKeyword
  | TitleText
  | KeyKeyword
  | KeySequence
  | OutputText
  | Command
deriving DecidableEq, Repr

structure Token where
  type : TokenType
  text : String
deriving DecidableEq, Repr

/-- `KeyboardTranslatorReader::tokenize` (lines 316-387) on the character
list of the line: strip comments, simplify, classify as title line / key
line / unparseable. -/
def tokenizeCore (cs : List Char) : List Token :=
  let text := simplifiedQt (stripComments cs)
  if text = [] then []
  else if "keyboard".data.isPrefixOf text then
    let t2 := simplifiedQt ((text.drop 8).filter (fun c => c ≠ '"'))
    if t2 = [] then []
    else [⟨TokenType.TitleKeyword, ""⟩, ⟨TokenType.TitleText, String.mk t2⟩]
  else
    match searchKey text with
    | none => []
    | some (g1, g2, g3) =>
      let seqTok : Token := ⟨TokenType.KeySequence, String.mk (g1.filter (fun c => c ≠ ' '))⟩
      let payload : Token :=
        match g3 with
        | some t => if t ≠ "" then ⟨TokenType.OutputText, t⟩ else ⟨TokenType.Command, g2⟩
        | none => ⟨TokenType.Command, g2⟩
      [⟨TokenType.KeyKeyword, ""⟩, seqTok, payload]

/-- `KeyboardTranslatorReader::tokenize` on the line as a string. -/
def tokenize (line : String) : List Token :=
  tokenizeCore line.data

/-! ## Commands, modifiers, state flags, key codes -/

inductive Command where
  | NoCommand
  | EraseCommand
  | ScrollPageUpCommand
  | ScrollPageDownCommand
  | ScrollLineUpCommand
  | ScrollLineDownCommand
  | ScrollUpToTopCommand
  | ScrollDownToBottomCommand
  | ScrollPromptUpCommand
  | ScrollPromptDownCommand
deriving DecidableEq, Repr

/-- `KeyboardTranslatorReader::parseAsCommand` (lines 107-132): the fixed
case-insensitive command vocabulary; `none` models returning `false`. -/
def parseAsCommand (text : String) : Option Command :=
  let t := lowerStr text
  if t = "erase" then some Command.EraseCommand
  else if t = "scrollpageup" then some Command.ScrollPageUpCommand
  else if t = "scrollpagedown" then some Command.ScrollPageDownCommand
  else if t = "scrolllineup" then some Command.ScrollLineUpCommand
  else if t = "scrolllinedown" then some Command.ScrollLineDownCommand
  else if t = "scrolluptotop" then some Command.ScrollUpToTopCommand
  else if t = "scrolldowntobottom" then some Command.ScrollDownToBottomCommand
  else if t = "scrollpromptup" then some Command.ScrollPromptUpCommand
  else if t = "scrollpromptdown" then some Command.ScrollPromptDownCommand
  else none

/-- Qt keyboard modifier bits (`Qt::KeyboardModifier`). -/
def ShiftModifier : Nat := 0x02000000
def ControlModifier : Nat := 0x04000000
def AltModifier : Nat := 0x08000000
def MetaModifier : Nat := 0x10000000
def KeypadModifier : Nat := 0x20000000

/-- Modelled from the spec: the `KeyboardTranslator::State` flag bits live in
`KeyboardTranslator.h`, which is not part of the sources; §3 fixes the flag
set {CursorKeys, Ansi, NewLine, AlternateScreen, AnyModifier,
ApplicationKeypad} as a bitset, modelled as distinct bits. -/
def NewLineState : Nat := 1
def AnsiState : Nat := 2
def CursorKeysState : Nat := 4
def AlternateScreenState : Nat := 8
def AnyModifierState : Nat := 16
def ApplicationKeypadState : Nat := 32

/-- `Qt::Key_unknown`, the initial key code of `readNext`. -/
def Key_unknown : Nat := 0x01ffffff
def Key_Home : Nat := 0x01000010
def Key_Up : Nat := 0x01000013
def Key_Down : Nat := 0x01000015

/-- `KeyboardTranslatorReader::parseAsModifier` (lines 204-221). -/
def parseAsModifier (item : String) : Option Nat :=
  if item = "shift" then some ShiftModifier
  else if item = "ctrl" ∨ item = "control" then some ControlModifier
  else if item = "alt" then some AltModifier
  else if item = "meta" then some MetaModifier
  else if item = "keypad" then some KeypadModifier
  else none

/-- `KeyboardTranslatorReader::parseAsStateFlag` (lines 223-242). -/
def parseAsStateFlag (item : String) : Option Nat :=
  if item = "appcukeys" ∨ item = "appcursorkeys" then some CursorKeysState
  else if item = "ansi" then some AnsiState
  else if item = "newline" then some NewLineState
  else if item = "appscreen" then some AlternateScreenState
  else if item = "anymod" ∨ item = "anymodifier" then some AnyModifierState
  else if item = "appkeypad" then some ApplicationKeypadState
  else none

/-- Modelled from the spec: `parseAsKeyCode` delegates to
`QKeySequence::fromString`, an external platform key-name table (§4.2, §6:
"given a textual key name, return a platform key code, or failure").  A
finite table over the (lowercased) names exercised here, with the Qt key
code values; multi-key sequences (where only the first code is kept) are not
in the table. -/
def keyNameToCode (item : String) : Option Nat :=
  if item = "home" then some Key_Home
  else if item = "up" then some Key_Up
  else if item = "down" then some Key_Down
  else if item = "left" then some 0x01000012
  else if item = "right" then some 0x01000014
  else if item = "enter" then some 0x01000005
  else if item = "a" then some 0x41
  else if item = "b" then some 0x42
  else if item = "+" then some 0x2b
  else if item = "-" then some 0x2d
  else none

/-- `KeyboardTranslatorReader::parseAsKeyCode` (lines 244-262), via the
key-name table. -/
def parseAsKeyCode (item : String) : Option Nat :=
  keyNameToCode item

/-! ## The key-sequence decoder (`decodeSequence`, lines 134-202) -/

/-- The five accumulators threaded through `decodeSequence`. -/
structure DecodeAcc where
  keyCode : Nat
  modifiers : Nat
  modifierMask : Nat
  flags : Nat
  flagMask : Nat
deriving DecidableEq, Repr

/-- The initial accumulator supplied by `readNext` (lines 65-70): no state,
no modifiers, `Qt::Key_unknown`. -/
def initialAcc : DecodeAcc :=
  ⟨Key_unknown, 0, 0, 0, 0⟩

/-- Classification of one completed item (lines 161-185): modifier, else
state flag, else key name, else skipped. -/
def classifyItem (buffer : String) (wanted : Bool) (acc : DecodeAcc) : DecodeAcc :=
  match parseAsModifier buffer with
  | some m =>
    { acc with
      modifierMask := acc.modifierMask ||| m
      modifiers := if wanted then acc.modifiers ||| m else acc.modifiers }
  | none =>
    match parseAsStateFlag buffer with
    | some f =>
      { acc with
        flagMask := acc.flagMask ||| f
        flags := if wanted then acc.flags ||| f else acc.flags }
    | none =>
      match parseAsKeyCode buffer with
      | some k => { acc with keyCode := k }
      | none => acc

/-- The character loop of `decodeSequence`: `first` is true exactly at the
character of index 0, `buffer` is the item accumulator, `wanted` the current
polarity.  Besides the accumulator the loop records every flushed item with
the polarity it was classified under. -/
def decodeLoop (first : Bool) (buffer : List Char) (wanted : Bool) (acc : DecodeAcc) :
    List Char → DecodeAcc × List (String × Bool)
  | [] => (acc, [])
  | c :: rest =>
    let isLast := rest.isEmpty
    let p : Bool × List Char :=
      if c.isAlphanum then (false, buffer ++ [c])
      else if first then (true, buffer ++ [c])
      else (true, buffer)
    let wanted1 := if c = '+' then true else if c = '-' then false else wanted
    if (p.1 || isLast) && !p.2.isEmpty then
      let acc1 := classifyItem (String.mk p.2) wanted acc
      let r := decodeLoop false [] wanted1 acc1 rest
      (r.1, (String.mk p.2, wanted) :: r.2)
    else
      decodeLoop false p.2 wanted1 acc rest

/-- `KeyboardTranslatorReader::decodeSequence` on an already-lowercased
sequence string: final accumulator plus the C++ return value (literally
`true`). -/
def decodeSequence (text : String) (acc : DecodeAcc) : DecodeAcc × Bool :=
  ((decodeLoop true [] true acc text.data).1, true)

/-- The items flushed by the decoder scan of a sequence string, each with the
polarity in force when it was classified. -/
def sequenceItems (text : String) : List (String × Bool) :=
  (decodeLoop true [] true initialAcc text.data).2

/-- Is this item one that reaches the key-name branch and resolves: not a
modifier, not a state flag, and in the key-name table? -/
def isKeyNameItem (buffer : String) : Bool :=
  (parseAsModifier buffer).isNone && (parseAsStateFlag buffer).isNone
    && (parseAsKeyCode buffer).isSome

/-- The decoder items of a sequence that classify as recognizable key names. -/
def keyItemsOf (text : String) : List (String × Bool) :=
  (sequenceItems text).filter (fun p => isKeyNameItem p.1)

/-! ## Entries and the reader loop -/

structure Entry where
  keyCode : Nat
  modifiers : Nat
  modifierMask : Nat
  state : Nat
  stateMask : Nat
  text : String
  command : Command
deriving DecidableEq, Repr

/-- Modelled from the spec: the `KeyboardTranslator::Entry` default
constructor lives in the missing header; §3 gives default key code
"unknown", no command, empty text, empty masks. -/
def defaultEntry : Entry :=
  ⟨Key_unknown, 0, 0, 0, 0, "", Command.NoCommand⟩

/-- Entry assembly of `readNext` (lines 65-94) from the sequence token and
the payload token: decode the lowercased sequence from the zeroed
accumulator, then take the payload as output text or as a command. -/
def decodeEntry (seqTok payload : Token) : Entry :=
  let r := (decodeSequence (lowerStr seqTok.text) initialAcc).1
  let tc : String × Command :=
    match payload.type with
    | TokenType.OutputText => (payload.text, Command.NoCommand)
    | TokenType.Command =>
      ("", match parseAsCommand payload.text with
           | some c => c
           | none => Command.NoCommand)
    | _ => ("", Command.NoCommand)
  ⟨r.keyCode, r.modifiers, r.modifierMask, r.flags, r.flagMask, tc.1, tc.2⟩

/-- The entry decoded from a token list whose first token is the `key`
keyword (the guard of `readNext`, line 64). -/
def entryOfTokens : List Token → Option Entry
  | ⟨TokenType.KeyKeyword, _⟩ :: t1 :: t2 :: _ => some (decodeEntry t1 t2)
  | _ => none

/-- Entry decoded from one raw line, when it is a key line. -/
def entryOfLine (l : String) : Option Entry :=
  entryOfTokens (tokenize l)

/-- Does the line tokenize with a leading `key` keyword token? -/
def isKeyLine (l : String) : Bool :=
  (entryOfLine l).isSome

/-- Reader state: captured description, the one-entry lookahead buffer and
the unread lines of the source. -/
structure ReaderState where
  description : String
  nextEntry : Option Entry
  remaining : List String
deriving DecidableEq, Repr

/-- The scan of `readNext` (lines 59-105): read lines until one tokenizes as
a key line, returning its entry and the unread rest; `none` when the source
is exhausted first. -/
def readNextFrom : List String → Option (Entry × List String)
  | [] => none
  | l :: rest =>
    match entryOfLine l with
    | some e => some (e, rest)
    | none => readNextFrom rest

/-- Run `readNext` against the unread lines, producing the next reader
state. -/
def readNextState (d : String) (ls : List String) : ReaderState :=
  match readNextFrom ls with
  | some (e, rest) => ⟨d, some e, rest⟩
  | none => ⟨d, none, []⟩

/-- The constructor's description scan (lines 46-52): consume lines until one
tokenizes as a title line with nonempty text, capturing the text (`i18n` is
the identity for spec purposes). -/
def scanTitle : List String → String × List String
  | [] => ("", [])
  | l :: rest =>
    match tokenize l with
    | ⟨TokenType.TitleKeyword, _⟩ :: t1 :: _ =>
      if t1.text = "" then scanTitle rest else (t1.text, rest)
    | _ => scanTitle rest

/-- Reader construction (lines 40-55): title scan, then one lookahead
`readNext`. -/
def mkReader (lines : List String) : ReaderState :=
  let s := scanTitle lines
  readNextState s.1 s.2

/-- `KeyboardTranslatorReader::hasNextEntry` (lines 269-272). -/
def hasNextEntry (r : ReaderState) : Bool :=
  r.nextEntry.isSome

/-- `KeyboardTranslatorReader::parseError` (lines 311-314): literally
`return false`. -/
def parseError (_ : ReaderState) : Bool :=
  false

/-- All entries produced by driving `hasNextEntry`/`nextEntry` (lines
303-309) to exhaustion: emit the buffered entry, refill by `readNext`,
repeat.  Fuel-indexed for structural recursion; every refill consumes at
least one line, so `remaining.length + 1` fuel drains any reader. -/
def drainFuel : Nat → ReaderState → List Entry
  | 0, _ => []
  | n + 1, r =>
    match r.nextEntry with
    | none => []
    | some e => e :: drainFuel n (readNextState r.description r.remaining)

/-- The full entry stream of a reader over the given source lines. -/
def readerDrain (lines : List String) : List Entry :=
  drainFuel (lines.length + 1) (mkReader lines)

/-! ## `createEntry` (lines 274-301) -/

/-- `QBuffer`/`readLine` line splitting: each line keeps its trailing
newline; a final fragment without a newline is its own line. -/
def splitAfterNL (acc : List Char) : List Char → List (List Char)
  | [] => if acc = [] then [] else [acc]
  | c :: rest =>
    if c = '\n' then (acc ++ [c]) :: splitAfterNL [] rest
    else splitAfterNL (acc ++ [c]) rest

/-- `KeyboardTranslatorReader::createEntry`: synthesize a two-line translator
fragment (`keyboard "temporary"`, then the key line, quoting `result` unless
it names a command) and pull the first entry through a fresh reader. -/
def createEntry (condition result : String) : Entry :=
  let entryString :=
    "keyboard \"temporary\"\nkey " ++ condition ++ " : " ++
      (match parseAsCommand result with
       | some _ => result
       | none => "\"" ++ result ++ "\"")
  let lines := (splitAfterNL [] entryString.data).map String.mk
  let r := mkReader lines
  match r.nextEntry with
  | some e => e
  | none => defaultEntry

/-! ## Auxiliary definitions for stating the claims

The anchored grammar follows the words of the claim about `tokenize`
matching "the whole simplified text" (a reading the code refutes); the
pattern `key\s+(.+?)\s*:\s*("(.*)"|\w+)` must consume the text from its
first to its last character. -/

/-- Anchored tail `\s*:\s*("(.*)"|\w+)` that must consume the whole list. -/
def anchoredTailEnd (cs : List Char) : Bool :=
  match cs.dropWhile isQtSpace with
  | ':' :: rest =>
    let rest1 := rest.dropWhile isQtSpace
    match rest1 with
    | '"' :: rest2 =>
      rest2 ≠ [] && rest2.getLast? = some '"' && rest2.dropLast.all (fun c => c ≠ '\n')
    | _ => rest1 ≠ [] && rest1.all isWordChar
  | _ => false

/-- Anchored `(.+?)` followed by the anchored tail: some nonempty
newline-free group prefix leaves a matching tail. -/
def anchoredG1 : List Char → Bool
  | [] => false
  | c :: rest => c ≠ '\n' && (anchoredTailEnd rest || anchoredG1 rest)

/-- Anchored `\s+` (one or more whitespace characters) followed by the
group and tail. -/
def anchoredAfterKey : List Char → Bool
  | [] => false
  | c :: rest => isQtSpace c && (anchoredG1 rest || anchoredAfterKey rest)

/-- Does the whole text match the key-line grammar, anchored at both ends
(the claim's reading of the tokenizer)? -/
def anchoredKeyMatch : List Char → Bool
  | 'k' :: 'e' :: 'y' :: rest => anchoredAfterKey rest
  | _ => false

/-- A character that can sit in a key-sequence condition without disturbing
the surrounding syntax: no whitespace, no colon, no quote, no hash. -/
def plainItemChar (c : Char) : Bool :=
  !(isQtSpace c || c = ':' || c = '"' || c = '#')

/-- The effect of classifying one item on the `keyCode` accumulator alone:
items that reach the key-name branch and resolve overwrite it; every other
item leaves it unchanged. -/
def stepKey (k : Nat) (p : String × Bool) : Nat :=
  if (parseAsModifier p.1).isNone ∧ (parseAsStateFlag p.1).isNone then
    (parseAsKeyCode p.1).getD k
  else k

/-- Does the line tokenize as a title line with nonempty title text — the
form that stops the constructor's description scan? -/
def isTitleLine (l : String) : Bool :=
  match tokenize l with
  | ⟨TokenType.TitleKeyword, _⟩ :: t1 :: _ => t1.text ≠ ""
  | _ => false

/-! ## Properties of comment stripping -/

/-- The `inQuotes` flag after the whole backward scan is the parity of the
number of quote characters. -/
theorem stripScan_fst (cs : List Char) :
    ((stripScan cs).1 = true ↔ cs.count '"' % 2 = 1) := by
  induction cs with
  | nil => simp [stripScan]
  | cons c rest ih =>
    simp only [stripScan, List.count_cons]
    by_cases hc : c = '"'
    · subst hc
      simp only [if_pos rfl, beq_self_eq_true, if_true]
      by_cases h : rest.count '"' % 2 = 1
      · have h2 : ¬ (rest.count '"' + 1) % 2 = 1 := by omega
        simp [ih.2 h, h2]
      · have h1 : (stripScan rest).1 = false := by
          cases hb : (stripScan rest).1
          · rfl
          · exact absurd (ih.1 hb) h
        have h2 : (rest.count '"' + 1) % 2 = 1 := by omega
        simp [h1, h2]
    · have hbeq : ('"' == c) = false := by
        cases h : ('"' == c)
        · rfl
        · exact absurd (beq_iff_eq.mp h).symm hc
      rw [if_neg hc]
      by_cases hb : c = '#' ∧ (stripScan rest).1 = false
      · rw [if_pos hb]
        have hfalse : ¬ rest.count '"' % 2 = 1 := fun hcc => by
          have h3 := ih.2 hcc
          rw [hb.2] at h3
          exact absurd h3 (by simp)
        simp [hb.2, hc]
        omega
      · rw [if_neg hb]
        simpa [hc] using ih

/-- The final `commentPos` of the backward scan is the smallest index holding
a `#` with an even number of quotes to its right. -/
theorem stripScan_snd (cs : List Char) :
    (stripScan cs).2 = firstUnquotedHash cs := by
  induction cs with
  | nil => rfl
  | cons c rest ih =>
    simp only [stripScan, firstUnquotedHash]
    by_cases hc : c = '"'
    · have hcond : ¬(c = '#' ∧ rest.count '"' % 2 = 0) := by
        intro h
        rw [hc] at h
        exact absurd h.1 (by decide)
      rw [if_pos hc, if_neg hcond]
      exact congrArg (Option.map (· + 1)) ih
    · by_cases hcond : c = '#' ∧ rest.count '"' % 2 = 0
      · have h1 : (stripScan rest).1 = false := by
          cases hb : (stripScan rest).1
          · rfl
          · have := (stripScan_fst rest).1 hb
            have := hcond.2
            omega
        have hscan : c = '#' ∧ (stripScan rest).1 = false := ⟨hcond.1, h1⟩
        rw [if_neg hc, if_pos hscan, if_pos hcond]
      · have hscan : ¬(c = '#' ∧ (stripScan rest).1 = false) := by
          intro h
          have h2 : rest.count '"' % 2 = 0 := by
            have h3 : ¬ (stripScan rest).1 = true := by rw [h.2]; simp
            have h4 : ¬ rest.count '"' % 2 = 1 :=
              fun hcc => h3 ((stripScan_fst rest).2 hcc)
            omega
          exact hcond ⟨h.1, h2⟩
        rw [if_neg hc, if_neg hscan, if_neg hcond]
        exact congrArg (Option.map (· + 1)) ih

/-- Soundness of `firstUnquotedHash`: a returned index really holds an
unquoted `#`. -/
theorem firstUnquotedHash_spec (cs : List Char) (j : Nat)
    (h : firstUnquotedHash cs = some j) : unquotedHashAt cs j := by
  induction cs generalizing j with
  | nil => simp [firstUnquotedHash] at h
  | cons c rest ih =>
    unfold firstUnquotedHash at h
    by_cases hcond : c = '#' ∧ rest.count '"' % 2 = 0
    · rw [if_pos hcond] at h
      have hj : j = 0 := by injection h with h2; omega
      subst hj
      exact ⟨by simpa using hcond.1, by simpa using hcond.2⟩
    · rw [if_neg hcond] at h
      cases hr : firstUnquotedHash rest with
      | none => rw [hr] at h; simp at h
      | some j2 =>
        rw [hr] at h
        have hj : j = j2 + 1 := by simp at h; omega
        subst hj
        have hspec := ih j2 hr
        exact ⟨by simpa using hspec.1, by simpa using hspec.2⟩

/-- C3 (amended): comment stripping scans the line backward toggling the
inside-quotes flag at every quote, but the comment position variable is
overwritten at every unquoted `#`, so the line is truncated at the last
position assigned during the scan: the smallest index whose character is `#`
and whose suffix holds an even number of quotes (not at the first `#` seen
by the backward scan, which is the largest such index). -/
theorem stripComments_truncates_first_unquoted_hash (cs : List Char) :
    stripComments cs =
      match firstUnquotedHash cs with
      | none => cs
      | some j => cs.take j := by
  unfold stripComments
  rw [stripScan_snd]

/-- C3 counterexample: in `a#b#c` the first `#` seen by the backward scan
while not inside quotes sits at index 3, but the code does not truncate
there (it truncates at index 1, keeping only `a`). -/
theorem stripComments_not_at_backward_first_hash :
    lastUnquotedHash "a#b#c".data = some 3 ∧
      stripComments "a#b#c".data ≠ "a#b#c".data.take 3 := by
  constructor
  · decide
  · decide

/-- C2 counterexample: in `#"a#b"` the `#` at index 3 lies inside the
balanced quote pair at indices 1 and 5, yet comment stripping does not leave
it unchanged: the unquoted `#` at index 0 truncates the whole line. -/
theorem quoted_hash_not_always_preserved :
    "#\"a#b\"".data.getD 1 ' ' = '"' ∧
    "#\"a#b\"".data.getD 5 ' ' = '"' ∧
    "#\"a#b\"".data.getD 3 ' ' = '#' ∧
    (("#\"a#b\"".data.drop 2).take 3).all (fun c => c ≠ '"') = true ∧
    ("#\"a#b\"".data.take 1).count '"' % 2 = 0 ∧
    ("#\"a#b\"".data.drop 6).count '"' % 2 = 0 ∧
    ((stripComments "#\"a#b\"".data).drop 3).take 3 ≠
      ("#\"a#b\"".data.drop 3).take 3 := by
  refine ⟨by decide, by decide, by decide, by decide, by decide, by decide, by decide⟩

/-- C2 (amended): a `#` inside a balanced pair of quotes never becomes the
comment start itself; it and every character after it up to the closing
quote survive comment stripping unchanged, provided no `#` with an even
number of quotes to its right occurs at or before the closing quote. -/
theorem quoted_hash_preserved (cs : List Char) (p m q : Nat)
    (hp : cs.getD p ' ' = '"') (hq : cs.getD q ' ' = '"')
    (hpm : p < m) (hmq : m < q) (hqlen : q < cs.length)
    (hm : cs.getD m ' ' = '#')
    (hbetween : ((cs.drop (p + 1)).take (q - p - 1)).all (fun c => c ≠ '"') = true)
    (hbefore : (cs.take p).count '"' % 2 = 0)
    (hafter : (cs.drop (q + 1)).count '"' % 2 = 0)
    (hnone : ∀ j, j ≤ q → ¬ unquotedHashAt cs j) :
    ((stripComments cs).drop m).take (q + 1 - m) = (cs.drop m).take (q + 1 - m) := by
  rw [stripComments_truncates_first_unquoted_hash]
  cases hF : firstUnquotedHash cs with
  | none => rfl
  | some j =>
    have hjq : q < j := by
      by_contra hle
      exact hnone j (by omega) (firstUnquotedHash_spec cs j hF)
    rw [List.drop_take, List.take_take]
    congr 1
    exact min_eq_left (by omega)

/-- Witness for the amended C2 on the line `key a : "x#y"` (quote pair at
indices 8 and 12, quoted `#` at index 10, no unquoted `#` anywhere). -/
theorem quoted_hash_preserved_witness :
    (∀ j, j ≤ 12 → ¬ unquotedHashAt "key a : \"x#y\"".data j) ∧
    ((stripComments "key a : \"x#y\"".data).drop 10).take 3 =
      ("key a : \"x#y\"".data.drop 10).take 3 :=
  ⟨by decide,
   quoted_hash_preserved "key a : \"x#y\"".data 8 10 12 (by decide) (by decide)
     (by decide) (by decide) (by decide) (by decide) (by decide) (by decide)
     (by decide) (by decide)⟩

/-! ## Properties of the key-sequence decoder -/

/-- Alphanumeric characters are not the polarity separators. -/
theorem isAlphanum_ne_sep (c : Char) (h : c.isAlphanum = true) :
    ¬ c = '+' ∧ ¬ c = '-' := by
  constructor
  · intro hc; rw [hc] at h; exact absurd h (by decide)
  · intro hc; rw [hc] at h; exact absurd h (by decide)

/-- While no item has been flushed yet, the polarity stays `true`: the first
item recorded by a run of the loop with a nonempty buffer and polarity
`true` is recorded with polarity `true`. -/
theorem decodeLoop_head_wanted (cs : List Char) :
    ∀ (b : List Char) (acc : DecodeAcc) (pr : String × Bool),
      b ≠ [] → ((decodeLoop false b true acc cs).2).head? = some pr → pr.2 = true := by
  induction cs with
  | nil =>
    intro b acc pr hb h
    simp [decodeLoop] at h
  | cons c rest ih =>
    intro b acc pr hb h
    simp only [decodeLoop] at h
    by_cases ha : c.isAlphanum
    · have hsep := isAlphanum_ne_sep c ha
      rw [if_pos ha] at h
      simp only [if_neg hsep.1, if_neg hsep.2] at h
      cases hr : rest.isEmpty with
      | true =>
        rw [hr] at h
        have hne : ((b ++ [c]).isEmpty) = false := by cases b <;> simp
        simp [hne] at h
        rw [← h]
      | false =>
        rw [hr] at h
        simp only [Bool.false_or, Bool.false_and, Bool.false_eq_true, if_false] at h
        exact ih (b ++ [c]) acc pr (by cases b <;> simp) h
    · rw [if_neg ha] at h
      have hne : (b.isEmpty) = false := by
        cases b
        · exact absurd rfl hb
        · simp
      simp [hne] at h
      rw [← h]

/-- The first item of a decoded sequence is always recorded with polarity
`true`, whatever the leading character is. -/
theorem sequenceItems_head_wanted (s : String) (pr : String × Bool)
    (h : (sequenceItems s).head? = some pr) : pr.2 = true := by
  unfold sequenceItems at h
  cases hd : s.data with
  | nil => rw [hd] at h; simp [decodeLoop] at h
  | cons c rest =>
    rw [hd] at h
    simp only [decodeLoop] at h
    by_cases ha : c.isAlphanum
    · have hsep := isAlphanum_ne_sep c ha
      rw [if_pos ha] at h
      simp only [if_neg hsep.1, if_neg hsep.2] at h
      cases hr : rest.isEmpty with
      | true =>
        rw [hr] at h
        simp at h
        rw [← h]
      | false =>
        rw [hr] at h
        simp only [Bool.false_or, Bool.false_and, Bool.false_eq_true, if_false] at h
        exact decodeLoop_head_wanted rest [c] _ pr (by simp) h
    · rw [if_neg ha] at h
      simp at h
      rw [← h]

/-- C1: decoding the already-lowercased sequence `home-anymod-appcukeys`
from the reader's initial accumulator sets the key code to `Qt::Key_Home`,
sets the AnyModifier (bit 4) and CursorKeys (bit 2) bits in the state mask,
leaves both bits clear in the state value (both items follow a `-`), and the
first item of any sequence is classified with polarity `wanted = true`,
whatever leading separator character the sequence starts with. -/
theorem decode_home_anymod_appcukeys :
    ((decodeSequence "home-anymod-appcukeys" initialAcc).1.keyCode = Key_Home ∧
     (decodeSequence "home-anymod-appcukeys" initialAcc).1.flagMask.testBit 4 = true ∧
     (decodeSequence "home-anymod-appcukeys" initialAcc).1.flagMask.testBit 2 = true ∧
     (decodeSequence "home-anymod-appcukeys" initialAcc).1.flags.testBit 4 = false ∧
     (decodeSequence "home-anymod-appcukeys" initialAcc).1.flags.testBit 2 = false) ∧
    (∀ (s : String) (pr : String × Bool),
      (sequenceItems s).head? = some pr → pr.2 = true) :=
  ⟨by decide, sequenceItems_head_wanted⟩

/-- Witness for C1 on the sequence `-home`, whose leading separator is its
first item and is classified as wanted. -/
theorem decode_home_anymod_appcukeys_witness :
    (sequenceItems "-home").head? = some ("-", true) ∧
      (("-", true) : String × Bool).2 = true :=
  ⟨by decide, decode_home_anymod_appcukeys.2 "-home" ("-", true) (by decide)⟩

/-- C6: `createEntry "Up+Shift" "scrollLineUp"` equals the entry obtained by
tokenizing and decoding the literal line `key Up+Shift : scrollLineUp`
through the reader pipeline directly (all fields, hence key code, modifiers,
modifier mask, state, state mask, text and command). -/
theorem createEntry_matches_direct_pipeline :
    entryOfTokens (tokenize "key Up+Shift : scrollLineUp") =
      some (createEntry "Up+Shift" "scrollLineUp") := by
  decide

/-- C10: `parseError` returns `false` for every reader in every state; the
reader never reports a parse error. -/
theorem parseError_always_false (r : ReaderState) : parseError r = false :=
  rfl

/-! ## Anchored reading of the key-line grammar (C4) -/

/-- C4 counterexample: the simplified text `monkey a : b` is not a title
line and does not match the key-line grammar as a whole (there is material
before `key`), yet `tokenize` returns tokens for it: the regular expression
is searched within the line, not matched against the whole line. -/
theorem tokenize_not_anchored :
    "keyboard".data.isPrefixOf (simplifiedQt (stripComments "monkey a : b".data)) = false ∧
    anchoredKeyMatch (simplifiedQt (stripComments "monkey a : b".data)) = false ∧
    tokenize "monkey a : b" ≠ [] := by
  refine ⟨by decide, by decide, by decide⟩

/-- The unanchored search fails exactly when the pattern matches at no start
position. -/
theorem searchKey_none_iff (cs : List Char) :
    searchKey cs = none ↔ ∀ i, matchKeyAt (cs.drop i) = none := by
  induction cs with
  | nil =>
    constructor
    · intro _ i
      simp [matchKeyAt]
    · intro _
      rfl
  | cons c rest ih =>
    constructor
    · intro h i
      unfold searchKey at h
      cases hm : matchKeyAt (c :: rest) with
      | some r => rw [hm] at h; exact absurd h (by simp)
      | none =>
        rw [hm] at h
        cases i with
        | zero => simpa using hm
        | succ j => simpa using ih.1 h j
    · intro h
      have h0 : matchKeyAt (c :: rest) = none := by simpa using h 0
      have hr : ∀ i, matchKeyAt (rest.drop i) = none := fun i => by
        simpa using h (i + 1)
      unfold searchKey
      rw [h0]
      exact ih.2 hr

/-- C4 (amended): for every line that is not a title line, `tokenize`
searches the simplified text for the key-line grammar at every start
position (unanchored `QRegularExpression::match`); it returns no tokens
exactly when that search fails. -/
theorem tokenize_empty_iff_search_fails (l : String)
    (ht : "keyboard".data.isPrefixOf (simplifiedQt (stripComments l.data)) = false) :
    (tokenize l = [] ↔ searchKey (simplifiedQt (stripComments l.data)) = none) := by
  unfold tokenize tokenizeCore
  by_cases he : simplifiedQt (stripComments l.data) = []
  · rw [if_pos he, he]
    simp [searchKey]
  · rw [if_neg he]
    rw [if_neg (by rw [ht]; exact fun hc => absurd hc (by simp))]
    cases hs : searchKey (simplifiedQt (stripComments l.data)) with
    | none => simp [hs]
    | some r => simp [hs]

/-- Witness for the amended C4 on a non-title, non-matching line. -/
theorem tokenize_empty_iff_search_fails_witness :
    "keyboard".data.isPrefixOf (simplifiedQt (stripComments "no match here".data)) = false ∧
    (tokenize "no match here" = [] ↔
      searchKey (simplifiedQt (stripComments "no match here".data)) = none) :=
  ⟨by decide, tokenize_empty_iff_search_fails "no match here" (by decide)⟩

/-! ## Key lines with empty quoted output (C5) -/

theorem plainItemChar_spec (c : Char) (h : plainItemChar c = true) :
    isQtSpace c = false ∧ ¬ c = ':' ∧ ¬ c = '"' ∧ ¬ c = '#' := by
  unfold plainItemChar at h
  simp only [Bool.not_eq_eq_eq_not, Bool.not_true, Bool.or_eq_false_iff,
    decide_eq_false_iff_not] at h
  exact ⟨h.1.1.1, h.1.1.2, h.1.2, h.2⟩

/-- Lists without `#` have no comment position. -/
theorem firstUnquotedHash_none_of_no_hash (cs : List Char)
    (h : ∀ c ∈ cs, ¬ c = '#') : firstUnquotedHash cs = none := by
  induction cs with
  | nil => rfl
  | cons c rest ih =>
    unfold firstUnquotedHash
    rw [if_neg (fun hc => (h c (by simp)) hc.1)]
    rw [ih (fun x hx => h x (by simp [hx]))]
    rfl

/-- Comment stripping does not touch a line without `#`. -/
theorem stripComments_of_no_hash (cs : List Char)
    (h : ∀ c ∈ cs, ¬ c = '#') : stripComments cs = cs := by
  unfold stripComments
  rw [stripScan_snd, firstUnquotedHash_none_of_no_hash cs h]

/-- A run of non-whitespace characters is absorbed into the current word. -/
theorem wordsQtAux_nonspace (c : List Char) (xs : List Char)
    (h : ∀ x ∈ c, isQtSpace x = false) :
    ∀ cur, wordsQtAux cur (c ++ xs) = wordsQtAux (c.reverse ++ cur) xs := by
  induction c with
  | nil => intro cur; simp
  | cons a as ih =>
    intro cur
    have ha : isQtSpace a = false := h a (by simp)
    simp only [List.cons_append, wordsQtAux]
    rw [if_neg (by rw [ha]; simp)]
    have hih := ih (fun x hx => h x (by simp [hx])) (a :: cur)
    simp only [List.append_eq] at hih ⊢
    rw [hih]
    simp

/-- The synthetic C5 line `key <c> : ""` is already simplified when the
condition has no whitespace. -/
theorem lineC5_simplified (c : List Char)
    (hne : c ≠ []) (hgood : ∀ x ∈ c, plainItemChar x = true) :
    simplifiedQt ('k' :: 'e' :: 'y' :: ' ' :: (c ++ (' ' :: ':' :: ' ' :: '"' :: '"' :: []))) =
      'k' :: 'e' :: 'y' :: ' ' :: (c ++ (' ' :: ':' :: ' ' :: '"' :: '"' :: [])) := by
  have hgs : ∀ x ∈ c, isQtSpace x = false :=
    fun x hx => (plainItemChar_spec x (hgood x hx)).1
  have hcr : ¬ (c.reverse = []) := by simpa using hne
  have h2 : wordsQtAux [] (c ++ (' ' :: ':' :: ' ' :: '"' :: '"' :: [])) =
      c :: [[':'], ['"', '"']] := by
    have h2a := wordsQtAux_nonspace c (' ' :: ':' :: ' ' :: '"' :: '"' :: []) hgs []
    rw [List.append_nil] at h2a
    rw [h2a, wordsQtAux]
    rw [if_pos (by decide : isQtSpace ' ' = true)]
    rw [if_neg hcr, List.reverse_reverse]
    rw [(by decide : wordsQtAux [] (':' :: ' ' :: '"' :: '"' :: []) = [[':'], ['"', '"']])]
  have h1 : wordsQtAux [] ('k' :: 'e' :: 'y' :: ' ' :: (c ++ (' ' :: ':' :: ' ' :: '"' :: '"' :: []))) =
      ['k', 'e', 'y'] :: c :: [[':'], ['"', '"']] := by
    have h1a := wordsQtAux_nonspace ['k', 'e', 'y']
      (' ' :: (c ++ (' ' :: ':' :: ' ' :: '"' :: '"' :: []))) (by decide) []
    rw [List.append_nil] at h1a
    have hform : ('k' :: 'e' :: 'y' :: ' ' :: (c ++ (' ' :: ':' :: ' ' :: '"' :: '"' :: []))) =
        (['k', 'e', 'y'] ++ (' ' :: (c ++ (' ' :: ':' :: ' ' :: '"' :: '"' :: [])))) := rfl
    rw [hform, h1a, wordsQtAux]
    rw [if_pos (by decide : isQtSpace ' ' = true)]
    rw [if_neg (by decide : ¬ ((['k', 'e', 'y'] : List Char).reverse = []))]
    rw [List.reverse_reverse, h2]
  unfold simplifiedQt
  rw [h1]
  simp [List.intersperse]

/-- The regular-expression group scan on `<c> : ""`: the non-greedy group
swallows exactly the condition, and the quoted branch captures the empty
string between the two quotes. -/
theorem tryG1_c5 (c : List Char)
    (hne : c ≠ []) (hgood : ∀ x ∈ c, plainItemChar x = true) :
    ∀ acc, tryG1 acc (c ++ (' ' :: ':' :: ' ' :: '"' :: '"' :: [])) =
      some (acc ++ c, "\"\"", some "") := by
  induction c with
  | nil => exact absurd rfl hne
  | cons a as ih =>
    intro acc
    have ha := plainItemChar_spec a (hgood a (by simp))
    have han : ¬ a = '\n' := by
      intro hh
      rw [hh] at ha
      exact absurd ha.1 (by decide)
    simp only [List.cons_append, tryG1]
    rw [if_neg han]
    cases as with
    | nil =>
      have hmt : matchTail (' ' :: ':' :: ' ' :: '"' :: '"' :: []) = some ("\"\"", some "") := by
        decide
      simp only [List.append_eq, List.nil_append]
      rw [hmt]
    | cons b bs =>
      have hb := plainItemChar_spec b (hgood b (by simp))
      have hmt : matchTail ((b :: bs) ++ (' ' :: ':' :: ' ' :: '"' :: '"' :: [])) = none := by
        unfold matchTail
        rw [List.cons_append, List.dropWhile_cons, if_neg (by rw [hb.1]; simp)]
        split
        · next heq =>
          exfalso
          injection heq with h1 _
          exact hb.2.1 h1
        · rfl
      rw [List.cons_append] at hmt
      simp only [List.append_eq, List.cons_append]
      rw [hmt]
      have ihs := ih (by simp) (fun x hx => hgood x (by simp [hx])) (acc ++ [a])
      simp only [List.cons_append] at ihs
      rw [ihs]
      simp

theorem plainItemChar_ne_space (a : Char) (h : plainItemChar a = true) :
    ¬ a = ' ' := by
  have h1 := (plainItemChar_spec a h).1
  intro hh
  rw [hh] at h1
  exact absurd h1 (by decide)

/-- C5 counterexample: for the key line `key A : ""` (quoted output the
empty string) the Command token carries the raw two-character capture `""`,
not an empty bare-word capture. -/
theorem empty_quoted_output_capture_not_empty :
    tokenize "key A : \"\"" =
      [⟨TokenType.KeyKeyword, ""⟩, ⟨TokenType.KeySequence, "A"⟩,
        ⟨TokenType.Command, "\"\""⟩] ∧
    ¬ (("\"\"" : String) = "") := by
  refine ⟨by decide, by decide⟩

/-- C5 (amended): a key line whose quoted output is the empty string yields
a Command token (not an OutputText token), but the token carries the raw
quoted capture `""` (the two quote characters, a nonempty string); that
capture matches no command name, so the decoded entry has no command and no
output text. -/
theorem empty_quoted_output_falls_to_command (c : List Char)
    (hne : c ≠ []) (hgood : c.all plainItemChar = true) :
    tokenize (String.mk ('k' :: 'e' :: 'y' :: ' ' :: (c ++ (' ' :: ':' :: ' ' :: '"' :: '"' :: [])))) =
      [⟨TokenType.KeyKeyword, ""⟩, ⟨TokenType.KeySequence, String.mk c⟩,
        ⟨TokenType.Command, "\"\""⟩] ∧
    (entryOfLine (String.mk ('k' :: 'e' :: 'y' :: ' ' :: (c ++ (' ' :: ':' :: ' ' :: '"' :: '"' :: []))))).map
      Entry.command = some Command.NoCommand ∧
    (entryOfLine (String.mk ('k' :: 'e' :: 'y' :: ' ' :: (c ++ (' ' :: ':' :: ' ' :: '"' :: '"' :: []))))).map
      Entry.text = some "" := by
  have hgood2 : ∀ x ∈ c, plainItemChar x = true := by
    intro x hx
    exact List.all_eq_true.mp hgood x hx
  have hnh : ∀ x ∈ ('k' :: 'e' :: 'y' :: ' ' :: (c ++ (' ' :: ':' :: ' ' :: '"' :: '"' :: []))),
      ¬ x = '#' := by
    intro x hx
    simp only [List.mem_cons, List.mem_append, List.not_mem_nil, or_false] at hx
    rcases hx with rfl | rfl | rfl | rfl | hx | rfl | rfl | rfl | rfl | rfl
    · decide
    · decide
    · decide
    · decide
    · exact (plainItemChar_spec x (hgood2 x hx)).2.2.2
    · decide
    · decide
    · decide
    · decide
    · decide
  have htok : tokenizeCore ('k' :: 'e' :: 'y' :: ' ' :: (c ++ (' ' :: ':' :: ' ' :: '"' :: '"' :: []))) =
      [⟨TokenType.KeyKeyword, ""⟩, ⟨TokenType.KeySequence, String.mk c⟩,
        ⟨TokenType.Command, "\"\""⟩] := by
    have hstrip := stripComments_of_no_hash _ hnh
    have hsimp := lineC5_simplified c hne hgood2
    have hkb : "keyboard".data.isPrefixOf
        ('k' :: 'e' :: 'y' :: ' ' :: (c ++ (' ' :: ':' :: ' ' :: '"' :: '"' :: []))) = false := rfl
    have hmka : matchKeyAt ('k' :: 'e' :: 'y' :: ' ' :: (c ++ (' ' :: ':' :: ' ' :: '"' :: '"' :: []))) =
        some (c, "\"\"", some "") := by
      have htw : ((' ' :: (c ++ (' ' :: ':' :: ' ' :: '"' :: '"' :: []))).takeWhile isQtSpace) = [' '] := by
        cases c with
        | nil => exact absurd rfl hne
        | cons a as =>
          have ha : isQtSpace a = false := (plainItemChar_spec a (hgood2 a (by simp))).1
          rw [List.takeWhile_cons, if_pos (by decide : isQtSpace ' ' = true)]
          rw [List.cons_append, List.takeWhile_cons, if_neg (by rw [ha]; simp)]
      show (if ((' ' :: (c ++ (' ' :: ':' :: ' ' :: '"' :: '"' :: []))).takeWhile isQtSpace).length = 0
            then none
            else trySpacesDown
              ((' ' :: (c ++ (' ' :: ':' :: ' ' :: '"' :: '"' :: []))).takeWhile isQtSpace).length
              (' ' :: (c ++ (' ' :: ':' :: ' ' :: '"' :: '"' :: [])))) =
          some (c, "\"\"", some "")
      rw [htw]
      show (match tryG1 [] (c ++ (' ' :: ':' :: ' ' :: '"' :: '"' :: [])) with
            | some r => some r
            | none => trySpacesDown 0 (' ' :: (c ++ (' ' :: ':' :: ' ' :: '"' :: '"' :: [])))) =
          some (c, "\"\"", some "")
      rw [tryG1_c5 c hne hgood2 []]
      simp
    unfold tokenizeCore
    rw [hstrip, hsimp]
    rw [if_neg (by simp : ¬ (('k' :: 'e' :: 'y' :: ' ' :: (c ++ (' ' :: ':' :: ' ' :: '"' :: '"' :: []))) = []))]
    rw [if_neg (by rw [hkb]; simp)]
    have hsearch : searchKey ('k' :: 'e' :: 'y' :: ' ' :: (c ++ (' ' :: ':' :: ' ' :: '"' :: '"' :: []))) =
        some (c, "\"\"", some "") := by
      unfold searchKey
      rw [hmka]
    rw [hsearch]
    have hfil : c.filter (fun x => !decide (x = ' ')) = c :=
      List.filter_eq_self.mpr (fun a ha => by
        simpa using plainItemChar_ne_space a (hgood2 a ha))
    simp [hfil]
  refine ⟨htok, ?_, ?_⟩
  · show ((entryOfTokens (tokenizeCore _)).map Entry.command) = some Command.NoCommand
    rw [htok]
    rfl
  · show ((entryOfTokens (tokenizeCore _)).map Entry.text) = some ""
    rw [htok]
    rfl

/-- Witness for the amended C5 at the condition `A` (the line `key A : ""`). -/
theorem empty_quoted_output_falls_to_command_witness :
    (['A'] : List Char) ≠ [] ∧ (['A'] : List Char).all plainItemChar = true ∧
    (entryOfLine (String.mk ('k' :: 'e' :: 'y' :: ' ' :: (['A'] ++ (' ' :: ':' :: ' ' :: '"' :: '"' :: []))))).map
      Entry.command = some Command.NoCommand :=
  ⟨by decide, by decide,
   (empty_quoted_output_falls_to_command ['A'] (by decide) (by decide)).2.1⟩

/-! ## The reader's entry-production loop (C7) -/

/-- Draining a reader whose lookahead was just refilled from `ls` yields
exactly the entries of the key lines of `ls`, in order, provided every line
is a key line or tokenizes to nothing and the fuel covers the source. -/
theorem drainFuel_readNextState (ls : List String) :
    ∀ (n : Nat) (d : String), ls.length + 1 ≤ n →
      (∀ l ∈ ls, isKeyLine l = true ∨ tokenize l = []) →
      drainFuel n (readNextState d ls) = ls.filterMap entryOfLine := by
  induction ls with
  | nil =>
    intro n d hn _
    cases n with
    | zero => omega
    | succ m => rfl
  | cons l rest ih =>
    intro n d hn hall
    by_cases hk : isKeyLine l = true
    · obtain ⟨e, he⟩ : ∃ e, entryOfLine l = some e := by
        unfold isKeyLine at hk
        exact Option.isSome_iff_exists.mp hk
      have hrn : readNextFrom (l :: rest) = some (e, rest) := by
        unfold readNextFrom
        rw [he]
      have hrs : readNextState d (l :: rest) = ⟨d, some e, rest⟩ := by
        unfold readNextState
        rw [hrn]
      rw [hrs]
      cases n with
      | zero => omega
      | succ m =>
        show e :: drainFuel m (readNextState d rest) = _
        rw [ih m d (by simp at hn ⊢; omega) (fun x hx => hall x (by simp [hx]))]
        rw [List.filterMap_cons, he]
    · have hemp : tokenize l = [] := by
        rcases hall l (by simp) with h | h
        · exact absurd h hk
        · exact h
      have hnone : entryOfLine l = none := by
        unfold entryOfLine
        rw [hemp]
        rfl
      have hrn : readNextFrom (l :: rest) = readNextFrom rest := by
        show (match entryOfLine l with
              | some e => some (e, rest)
              | none => readNextFrom rest) = readNextFrom rest
        rw [hnone]
      have hrs : readNextState d (l :: rest) = readNextState d rest := by
        unfold readNextState
        rw [hrn]
      rw [hrs, ih n d (by simp at hn ⊢; omega) (fun x hx => hall x (by simp [hx]))]
      rw [List.filterMap_cons, hnone]

/-- C7 counterexample: a source holding exactly one well-formed key line
(and no title line) yields no entries at all: the constructor consumes the
whole source searching for a description before any entry can be read. -/
theorem reader_without_title_yields_nothing :
    isKeyLine "key a : erase" = true ∧
      readerDrain ["key a : erase"] = [] := by
  refine ⟨by decide, by decide⟩

/-- C7 (amended): for a source whose first line is a title line and whose
remaining lines each either are a well-formed key line or tokenize to
nothing (blank and comment-only lines), driving `hasNextEntry`/`nextEntry`
to exhaustion yields exactly the entries of the key lines, in file order,
none dropped or duplicated.  (Without a title line the constructor consumes
the whole source looking for the description and yields nothing.) -/
theorem reader_yields_all_key_lines (t : String) (ls : List String)
    (ht : isTitleLine t = true)
    (hall : ls.all (fun l => isKeyLine l || (tokenize l).isEmpty) = true) :
    readerDrain (t :: ls) = ls.filterMap entryOfLine := by
  have hall2 : ∀ l ∈ ls, isKeyLine l = true ∨ tokenize l = [] := by
    intro l hl
    have h2 := List.all_eq_true.mp hall l hl
    simpa using h2
  obtain ⟨d0, hscan⟩ : ∃ d0, scanTitle (t :: ls) = (d0, ls) := by
    unfold isTitleLine at ht
    cases htok : tokenize t with
    | nil =>
      rw [htok] at ht
      simp at ht
    | cons t0 ts =>
      obtain ⟨ty, tx⟩ := t0
      cases ts with
      | nil =>
        rw [htok] at ht
        cases ty <;> simp at ht
      | cons t1 ts2 =>
        rw [htok] at ht
        cases ty
        case TitleKeyword =>
          have hne : ¬ (t1.text = "") := by simpa using ht
          refine ⟨t1.text, ?_⟩
          unfold scanTitle
          rw [htok]
          show (if t1.text = "" then scanTitle ls else (t1.text, ls)) = (t1.text, ls)
          rw [if_neg hne]
        all_goals simp at ht
  unfold readerDrain mkReader
  rw [hscan]
  show drainFuel ((t :: ls).length + 1) (readNextState d0 ls) = _
  exact drainFuel_readNextState ls ((t :: ls).length + 1) d0 (by simp) hall2

/-- Witness for the amended C7: a title line followed by two key lines
interleaved with a comment line and a blank line yields exactly the two key
entries in order. -/
theorem reader_yields_all_key_lines_witness :
    isTitleLine "keyboard \"x\"" = true ∧
    (["# c", "key a : erase", "", "key b : erase"].all
      (fun l => isKeyLine l || (tokenize l).isEmpty)) = true ∧
    readerDrain ["keyboard \"x\"", "# c", "key a : erase", "", "key b : erase"] =
      ["# c", "key a : erase", "", "key b : erase"].filterMap entryOfLine :=
  ⟨by decide, by decide,
   reader_yields_all_key_lines "keyboard \"x\"" ["# c", "key a : erase", "", "key b : erase"]
     (by decide) (by decide)⟩

/-! ## Last key name wins (C8) -/

theorem classifyItem_keyCode (s : String) (w : Bool) (acc : DecodeAcc) :
    (classifyItem s w acc).keyCode = stepKey acc.keyCode (s, w) := by
  unfold classifyItem stepKey
  cases hm : parseAsModifier s <;> cases hf : parseAsStateFlag s <;>
    cases hk : parseAsKeyCode s <;> simp [hm, hf, hk]

/-- The decoder's final key code is the left fold of the item effects over
the flushed items. -/
theorem decodeLoop_keyCode_foldl (cs : List Char) :
    ∀ (f : Bool) (b : List Char) (w : Bool) (acc : DecodeAcc),
      (decodeLoop f b w acc cs).1.keyCode =
        List.foldl stepKey acc.keyCode (decodeLoop f b w acc cs).2 := by
  induction cs with
  | nil =>
    intro f b w acc
    rfl
  | cons c rest ih =>
    intro f b w acc
    simp only [decodeLoop]
    split
    · split
      · simp only [List.foldl_cons]
        rw [← classifyItem_keyCode]
        exact ih false [] _ _
      · exact ih false _ _ acc
    · split
      · split
        · simp only [List.foldl_cons]
          rw [← classifyItem_keyCode]
          exact ih false [] _ _
        · exact ih false _ _ acc
      · split
        · simp only [List.foldl_cons]
          rw [← classifyItem_keyCode]
          exact ih false [] _ _
        · exact ih false _ _ acc

/-- A fold over items none of which is a recognizable key name leaves the
key code unchanged. -/
theorem foldl_stepKey_no_key (items : List (String × Bool)) :
    ∀ k, items.filter (fun p => isKeyNameItem p.1) = [] →
      List.foldl stepKey k items = k := by
  induction items with
  | nil =>
    intro k _
    rfl
  | cons i rest ih =>
    intro k hf
    rw [List.filter_cons] at hf
    by_cases hi : isKeyNameItem i.1 = true
    · rw [if_pos hi] at hf
      simp at hf
    · rw [if_neg hi] at hf
      rw [List.foldl_cons]
      have hstep : stepKey k i = k := by
        unfold stepKey
        by_cases hc : (parseAsModifier i.1).isNone = true ∧ (parseAsStateFlag i.1).isNone = true
        · rw [if_pos hc]
          cases hk : parseAsKeyCode i.1 with
          | none => rfl
          | some v =>
            exfalso
            apply hi
            unfold isKeyNameItem
            rw [hc.1, hc.2, hk]
            rfl
        · rw [if_neg hc]
      rw [hstep]
      exact ih k hf

/-- A fold over items whose last recognizable key name resolves to `kc` ends
at `kc`. -/
theorem foldl_stepKey_last_key (items : List (String × Bool)) :
    ∀ (k : Nat) (it : String × Bool) (kc : Nat),
      (items.filter (fun p => isKeyNameItem p.1)).getLast? = some it →
      parseAsKeyCode it.1 = some kc →
      List.foldl stepKey k items = kc := by
  induction items with
  | nil =>
    intro k it kc h _
    simp at h
  | cons i rest ih =>
    intro k it kc hlast hkc
    rw [List.filter_cons] at hlast
    rw [List.foldl_cons]
    by_cases hi : isKeyNameItem i.1 = true
    · rw [if_pos hi] at hlast
      cases hfr : rest.filter (fun p => isKeyNameItem p.1) with
      | nil =>
        rw [hfr] at hlast
        have hit : i = it := by simpa using hlast
        rw [foldl_stepKey_no_key rest _ hfr]
        unfold isKeyNameItem at hi
        have hmod : (parseAsModifier i.1).isNone = true := by
          cases hm : (parseAsModifier i.1).isNone
          · rw [hm] at hi; simp at hi
          · rfl
        have hflag : (parseAsStateFlag i.1).isNone = true := by
          cases hf2 : (parseAsStateFlag i.1).isNone
          · rw [hf2] at hi; simp at hi
          · rfl
        unfold stepKey
        rw [if_pos ⟨hmod, hflag⟩]
        rw [hit, hkc]
        rfl
      | cons j js =>
        rw [hfr] at hlast
        have hlast2 : (rest.filter (fun p => isKeyNameItem p.1)).getLast? = some it := by
          rw [hfr]
          simpa [List.getLast?_cons_cons] using hlast
        exact ih (stepKey k i) it kc hlast2 hkc
    · rw [if_neg hi] at hlast
      exact ih (stepKey k i) it kc hlast hkc

/-- C8: when a sequence contains more than one item that classifies as a
recognizable key name, `decodeSequence` sets the key code to the key code of
the last such item (last key-name wins), and the sequence is not rejected
(the decoder still returns true). -/
theorem last_key_name_wins (s : String) (it : String × Bool) (kc : Nat)
    (hmany : 2 ≤ (keyItemsOf s).length)
    (hlast : (keyItemsOf s).getLast? = some it)
    (hkc : parseAsKeyCode it.1 = some kc) :
    (decodeSequence s initialAcc).1.keyCode = kc ∧
      (decodeSequence s initialAcc).2 = true := by
  constructor
  · show (decodeLoop true [] true initialAcc s.data).1.keyCode = kc
    rw [decodeLoop_keyCode_foldl]
    exact foldl_stepKey_last_key _ _ it kc hlast hkc
  · rfl

/-- Witness for C8: `home+up` holds two key-name items and decodes to the
key code of `up`. -/
theorem last_key_name_wins_witness :
    2 ≤ (keyItemsOf "home+up").length ∧
    (keyItemsOf "home+up").getLast? = some ("up", true) ∧
    parseAsKeyCode "up" = some Key_Up ∧
    (decodeSequence "home+up" initialAcc).1.keyCode = Key_Up :=
  ⟨by decide, by decide, by decide,
   (last_key_name_wins "home+up" ("up", true) Key_Up (by decide) (by decide) (by decide)).1⟩

/-! ## Value bits stay within mask bits (C9) -/

theorem lor_land_lor_of_land (a bm x : Nat) (h : a &&& bm = a) :
    (a ||| x) &&& (bm ||| x) = a ||| x := by
  apply Nat.eq_of_testBit_eq
  intro i
  have hp : (a.testBit i && bm.testBit i) = a.testBit i := by
    rw [← Nat.testBit_land, h]
  rw [Nat.testBit_land, Nat.testBit_lor, Nat.testBit_lor]
  cases hx : x.testBit i <;> cases ha2 : a.testBit i <;> cases hb : bm.testBit i <;>
    simp_all

theorem land_lor_of_land (a bm x : Nat) (h : a &&& bm = a) :
    a &&& (bm ||| x) = a := by
  apply Nat.eq_of_testBit_eq
  intro i
  have hp : (a.testBit i && bm.testBit i) = a.testBit i := by
    rw [← Nat.testBit_land, h]
  rw [Nat.testBit_land, Nat.testBit_lor]
  cases hx : x.testBit i <;> cases ha2 : a.testBit i <;> cases hb : bm.testBit i <;>
    simp_all

/-- Classifying one item preserves "value bits lie within mask bits" for
both the modifier pair and the state pair: masks only grow, and a value bit
is set only together with its mask bit. -/
theorem classifyItem_masks (s : String) (w : Bool) (acc : DecodeAcc)
    (h1 : acc.modifiers &&& acc.modifierMask = acc.modifiers)
    (h2 : acc.flags &&& acc.flagMask = acc.flags) :
    (classifyItem s w acc).modifiers &&& (classifyItem s w acc).modifierMask =
      (classifyItem s w acc).modifiers ∧
    (classifyItem s w acc).flags &&& (classifyItem s w acc).flagMask =
      (classifyItem s w acc).flags := by
  unfold classifyItem
  cases hm : parseAsModifier s with
  | some m =>
    cases w
    · simpa using ⟨land_lor_of_land _ _ m h1, h2⟩
    · simpa using ⟨lor_land_lor_of_land _ _ m h1, h2⟩
  | none =>
    cases hf : parseAsStateFlag s with
    | some fl =>
      cases w
      · simpa using ⟨h1, land_lor_of_land _ _ fl h2⟩
      · simpa using ⟨h1, lor_land_lor_of_land _ _ fl h2⟩
    | none =>
      cases hk : parseAsKeyCode s <;> simpa using ⟨h1, h2⟩

/-- The decoder's character loop preserves the invariant. -/
theorem decodeLoop_masks (cs : List Char) :
    ∀ (f : Bool) (b : List Char) (w : Bool) (acc : DecodeAcc),
      acc.modifiers &&& acc.modifierMask = acc.modifiers →
      acc.flags &&& acc.flagMask = acc.flags →
      ((decodeLoop f b w acc cs).1.modifiers &&& (decodeLoop f b w acc cs).1.modifierMask =
         (decodeLoop f b w acc cs).1.modifiers ∧
       (decodeLoop f b w acc cs).1.flags &&& (decodeLoop f b w acc cs).1.flagMask =
         (decodeLoop f b w acc cs).1.flags) := by
  induction cs with
  | nil =>
    intro f b w acc h1 h2
    exact ⟨h1, h2⟩
  | cons c rest ih =>
    intro f b w acc h1 h2
    simp only [decodeLoop]
    split
    · split
      · exact ih false [] _ _ (classifyItem_masks _ _ _ h1 h2).1 (classifyItem_masks _ _ _ h1 h2).2
      · exact ih false _ _ acc h1 h2
    · split
      · split
        · exact ih false [] _ _ (classifyItem_masks _ _ _ h1 h2).1 (classifyItem_masks _ _ _ h1 h2).2
        · exact ih false _ _ acc h1 h2
      · split
        · exact ih false [] _ _ (classifyItem_masks _ _ _ h1 h2).1 (classifyItem_masks _ _ _ h1 h2).2
        · exact ih false _ _ acc h1 h2

/-- Every entry decoded from a key-line token list satisfies the invariant
(given the zeroed initial masks supplied by `readNext`). -/
theorem entryOfTokens_masks (ts : List Token) (e : Entry)
    (h : entryOfTokens ts = some e) :
    e.modifiers &&& e.modifierMask = e.modifiers ∧ e.state &&& e.stateMask = e.state := by
  cases ts with
  | nil => simp [entryOfTokens] at h
  | cons t0 ts1 =>
    obtain ⟨ty, tx⟩ := t0
    cases ty
    case KeyKeyword =>
      cases ts1 with
      | nil => simp [entryOfTokens] at h
      | cons t1 ts2 =>
        cases ts2 with
        | nil => simp [entryOfTokens] at h
        | cons t2 ts3 =>
          have hred : entryOfTokens (⟨TokenType.KeyKeyword, tx⟩ :: t1 :: t2 :: ts3) =
              some (decodeEntry t1 t2) := rfl
          rw [hred] at h
          have he : decodeEntry t1 t2 = e := Option.some_inj.mp h
          subst he
          exact decodeLoop_masks (lowerStr t1.text).data true [] true initialAcc rfl rfl
    all_goals simp [entryOfTokens] at h

/-- The entry found by a `readNext` scan satisfies the invariant. -/
theorem readNextFrom_masks (ls : List String) :
    ∀ (e : Entry) (rest : List String), readNextFrom ls = some (e, rest) →
      e.modifiers &&& e.modifierMask = e.modifiers ∧ e.state &&& e.stateMask = e.state := by
  induction ls with
  | nil =>
    intro e rest h
    simp [readNextFrom] at h
  | cons l ls1 ih =>
    intro e rest h
    unfold readNextFrom at h
    cases hl : entryOfLine l with
    | some e2 =>
      rw [hl] at h
      have he : e2 = e := by
        injection h with h2
        exact congrArg Prod.fst h2
      subst he
      exact entryOfTokens_masks (tokenize l) e2 hl
    | none =>
      rw [hl] at h
      exact ih e rest h

/-- The lookahead buffer filled by `readNext` satisfies the invariant. -/
theorem readNextState_masks (d : String) (ls : List String) (e0 : Entry)
    (h : (readNextState d ls).nextEntry = some e0) :
    e0.modifiers &&& e0.modifierMask = e0.modifiers ∧
      e0.state &&& e0.stateMask = e0.state := by
  unfold readNextState at h
  cases hrf : readNextFrom ls with
  | some pr =>
    obtain ⟨epr, rpr⟩ := pr
    rw [hrf] at h
    have he : epr = e0 := by simpa using h
    subst he
    exact readNextFrom_masks ls epr rpr hrf
  | none =>
    rw [hrf] at h
    simp at h

/-- Every entry drained from a reader whose buffer satisfies the invariant
satisfies it too. -/
theorem drainFuel_masks (n : Nat) :
    ∀ (r : ReaderState),
      (∀ e0, r.nextEntry = some e0 →
        e0.modifiers &&& e0.modifierMask = e0.modifiers ∧
          e0.state &&& e0.stateMask = e0.state) →
      ∀ e ∈ drainFuel n r,
        e.modifiers &&& e.modifierMask = e.modifiers ∧
          e.state &&& e.stateMask = e.state := by
  induction n with
  | zero =>
    intro r _ e he
    simp [drainFuel] at he
  | succ m ih =>
    intro r hr e he
    unfold drainFuel at he
    cases hn : r.nextEntry with
    | none =>
      rw [hn] at he
      simp at he
    | some e0 =>
      rw [hn] at he
      simp only [List.mem_cons] at he
      rcases he with rfl | he2
      · exact hr e hn
      · exact ih (readNextState r.description r.remaining)
          (fun e1 h1 => readNextState_masks r.description r.remaining e1 h1) e he2

/-- C9: every entry produced by the reader (which supplies all-zero initial
value/mask arguments to the decoder) has each value bit set only where the
corresponding mask bit is set: `modifiers` is bitwise contained in
`modifierMask`, and `state` in `stateMask`. -/
theorem entry_value_bits_within_mask (lines : List String) (e : Entry)
    (he : e ∈ readerDrain lines) :
    e.modifiers &&& e.modifierMask = e.modifiers ∧
      e.state &&& e.stateMask = e.state := by
  unfold readerDrain mkReader at he
  exact drainFuel_masks (lines.length + 1) _
    (fun e0 h0 => readNextState_masks _ _ e0 h0) e he

/-- Witness for C9: the single entry of a two-line source, whose modifier
value and mask are both the Shift bit and whose state pair is zero. -/
theorem entry_value_bits_within_mask_witness :
    (⟨Key_Up, ShiftModifier, ShiftModifier, 0, 0, "", Command.EraseCommand⟩ : Entry) ∈
      readerDrain ["keyboard \"t\"", "key Up+Shift : erase"] ∧
    ((⟨Key_Up, ShiftModifier, ShiftModifier, 0, 0, "", Command.EraseCommand⟩ : Entry).modifiers &&&
       (⟨Key_Up, ShiftModifier, ShiftModifier, 0, 0, "", Command.EraseCommand⟩ : Entry).modifierMask =
       (⟨Key_Up, ShiftModifier, ShiftModifier, 0, 0, "", Command.EraseCommand⟩ : Entry).modifiers ∧
     (⟨Key_Up, ShiftModifier, ShiftModifier, 0, 0, "", Command.EraseCommand⟩ : Entry).state &&&
       (⟨Key_Up, ShiftModifier, ShiftModifier, 0, 0, "", Command.EraseCommand⟩ : Entry).stateMask =
       (⟨Key_Up, ShiftModifier, ShiftModifier, 0, 0, "", Command.EraseCommand⟩ : Entry).state) :=
  ⟨by decide,
   entry_value_bits_within_mask ["keyboard \"t\"", "key Up+Shift : erase"]
     ⟨Key_Up, ShiftModifier, ShiftModifier, 0, 0, "", Command.EraseCommand⟩ (by decide)⟩

end Konsole
